import Mathlib

/-!
Verification of the core logic of the `explore` visualization tool
(`cmd/explore`): the line-range locator `lineRangeOfBlock`, the primitive
step/page sequencer, the highlight mappers (`findBlock`, `findCHighlight`,
`genLLVMHighlight`, `lineRangeOfBlockInC`, `findBlockLines`), and the
temp-directory lifecycle of `decompGo`.

Texts are modelled as `List Char` (Go strings are byte strings; the inputs
of interest are ASCII so characters are a faithful carrier). Fallible Go
functions returning `(T, error)` become `Except String T`; a Go `panic`
becomes `Option.none` / an error, as noted at each definition.
-/

namespace Explore

/-! ## Text primitives: `strings.Index`, `strings.Count`, line splitting -/

/-- Model of Go `strings.Index(s, sub)`: the index of the first occurrence
of `sub` in `s`, or `none` when `sub` does not occur (Go returns `-1`).
An empty `sub` yields index 0, as in Go. -/
def stringsIndex : List Char → List Char → Option Nat
  | [], sub => if sub.isPrefixOf ([] : List Char) then some 0 else none
  | c :: rest, sub =>
    if sub.isPrefixOf (c :: rest) then some 0
    else (stringsIndex rest sub).map (· + 1)

/-- Model of `lineRangeOfBlock` (cmd/explore/main.go): locate `blockStr`
inside `funcStr` with `strings.Index`; on failure the Go code panics,
modelled as `none`. On success, `start` is 1 plus the number of newlines
in the prefix before the match, and `end` is `start` plus the number of
newlines inside `blockStr`. -/
def lineRangeOfBlock (funcStr blockStr : List Char) : Option (Nat × Nat) :=
  match stringsIndex funcStr blockStr with
  | none => none
  | some pos =>
    let «start» := 1 + (funcStr.take pos).count '\n'
    let n := blockStr.count '\n'
    some («start», «start» + n)

/-- Split a text into its lines at newline characters (the lines do not
contain the separators); a text with `k` newlines has `k + 1` lines. -/
def splitLines : List Char → List (List Char)
  | [] => [[]]
  | c :: cs =>
    if c = '\n' then [] :: splitLines cs
    else
      match splitLines cs with
      | [] => [[c]]
      | l :: ls => (c :: l) :: ls

/-- Join lines back into a text, separating consecutive lines by a newline. -/
def joinLines : List (List Char) → List Char
  | [] => []
  | [l] => l
  | l :: ls => l ++ '\n' :: joinLines ls

/-- Extract from `s` the text of the 1-based inclusive line range
`[start, endLine]`. -/
def extractLines (s : List Char) («start» endLine : Nat) : List Char :=
  joinLines (((splitLines s).drop («start» - 1)).take (endLine - «start» + 1))

/-! ## Primitive step sequencer -/

/-- A recovered control flow primitive (`primitive.Primitive`): the core
logic only reads its `Nodes` list of basic-block names. -/
structure Primitive where
  nodes : List String
deriving Repr, DecidableEq

/-- The total page count of the visualization of a primitive sequence:
`npages := 1 + 2*len(prims)` (outputFuncVisualization). -/
def pageCount (prims : List Primitive) : Nat :=
  1 + 2 * prims.length

/-- Modelled from the spec: no `pageToStep` implementation is present under
src (only the page count `npages := 1 + 2*len(prims)` and the per-substep
callers such as `outputGo`/`outputCFA` exist). Per spec §4.3: page 1 maps
to `(step=0, subState=none)`; for page `p > 1`, with `k = p - 1`,
`step = ceil(k/2)` and the sub-state is `"a"` when `k` is odd and `"b"`
when `k` is even. -/
def pageToStep (page : Nat) : Nat × Option String :=
  if page = 1 then (0, none)
  else
    let k := page - 1
    ((k + 1) / 2, if k % 2 = 1 then some "a" else some "b")

/-- The primitives visible at a given step and sub-step, from `outputGo`
(cmd/explore/output_go.go): sub-step `"a"` (before merge) shows
`prims[:step-1]`, sub-step `"b"` (after merge) shows `prims[:step]`, and
any other sub-step shows nothing. -/
def stepPrims (prims : List Primitive) (step : Nat) (subStep : String) :
    List Primitive :=
  if subStep = "a" then prims.take (step - 1)
  else if subStep = "b" then prims.take step
  else []

/-! ## IR data model for the highlight mappers -/

/-- A metadata node (`metadata.MDNode`): a `DILocation` carrying a line
number, a `metadata.Def` wrapper around another node, or any other node
kind. -/
inductive MDNode where
  | dilocation (line : Nat)
  | mdDef (node : MDNode)
  | other
deriving Repr, DecidableEq

/-- A metadata attachment (`metadata.Attachment`) of an instruction or
terminator: a name (e.g. "dbg") and a node. -/
structure Attachment where
  name : String
  node : MDNode
deriving Repr, DecidableEq

/-- An instruction or terminator; the highlight mappers only read its
metadata attachments (`MDAttachments()`). -/
structure Value where
  mdAttachments : List Attachment
deriving Repr, DecidableEq

/-- A basic block (`ir.Block`): its name, instructions, terminator, and
textual LLVM IR rendering (`LLString()`). -/
structure Block where
  name : String
  insts : List Value
  term : Value
  text : List Char
deriving Repr, DecidableEq

/-- A function (`ir.Func`): its name, ordered basic blocks, and textual
LLVM IR rendering (`LLString()`). -/
structure Func where
  name : String
  blocks : List Block
  text : List Char
deriving Repr, DecidableEq

/-- Model of `diLocation` (cmd/explore/main.go): unwrap one
`metadata.Def` wrapper, then return the line of the node when it is a
`DILocation`; `none` (Go: `ok = false`) otherwise. -/
def diLocation : MDNode → Option Nat
  | MDNode.dilocation line => some line
  | MDNode.mdDef node =>
    match node with
    | MDNode.dilocation line => some line
    | _ => none
  | MDNode.other => none

/-- The per-value inner loop of `lineRangeOfBlockInC`: for every
attachment named "dbg" whose node resolves via `diLocation`, append the
single-line range `(line, line)`. -/
def dbgRangesOfAttachments (as : List Attachment) : List (Nat × Nat) :=
  as.filterMap fun md =>
    if md.name = "dbg" then (diLocation md.node).map fun l => (l, l)
    else none

/-- Model of `lineRangeOfBlockInC` (cmd/explore/main.go): iterate the
block's instructions followed by its terminator and collect the "dbg"
DILocation line ranges of each. -/
def lineRangeOfBlockInC (block : Block) : List (Nat × Nat) :=
  ((block.insts ++ [block.term]).map fun v =>
    dbgRangesOfAttachments v.mdAttachments).flatten

/-- Model of `findLine` (part_008): the single-line range of the first
"dbg" attachment whose node is directly a `DILocation` (no `Def`
unwrapping); scanning continues past "dbg" attachments with other nodes;
`none` when no such attachment exists. -/
def findLine : List Attachment → Option (Nat × Nat)
  | [] => none
  | md :: mds =>
    if md.name = "dbg" then
      match md.node with
      | MDNode.dilocation line => some (line, line)
      | _ => findLine mds
    else findLine mds

/-- Model of `findBlockLines` (part_008): one single-line range per
instruction/terminator for which `findLine` succeeds, in block order;
values without a usable "dbg" attachment are silently skipped. -/
def findBlockLines (block : Block) : List (Nat × Nat) :=
  (block.insts ++ [block.term]).filterMap fun v => findLine v.mdAttachments

/-- The loop of `findBlock` (cmd/explore/helper.go): first block whose
name matches, else a NotFound error. -/
def findBlockIn : List Block → String → Except String Block
  | [], _ => Except.error "unable to locate basic block"
  | block :: blocks, blockName =>
    if block.name = blockName then Except.ok block
    else findBlockIn blocks blockName

/-- Model of `findBlock`: locate the basic block with the given name in
the function, or return a NotFound error. -/
def findBlock (f : Func) (blockName : String) : Except String Block :=
  findBlockIn f.blocks blockName

/-- The node loop of `findCHighlight` (part_007/part_008): resolve each
node name via `findBlock` (propagating NotFound) and concatenate the
blocks' debug line ranges. -/
def findCHighlightNodes (f : Func) :
    List String → Except String (List (Nat × Nat))
  | [] => Except.ok []
  | blockName :: rest =>
    match findBlock f blockName with
    | Except.error e => Except.error e
    | Except.ok block =>
      match findCHighlightNodes f rest with
      | Except.error e => Except.error e
      | Except.ok lines => Except.ok (findBlockLines block ++ lines)

/-- Model of `findCHighlight` (part_007/part_008; `highlightCRanges` of
cmd/explore/main.go is the same loop over `lineRangeOfBlockInC`). -/
def findCHighlight (f : Func) (prim : Primitive) :
    Except String (List (Nat × Nat)) :=
  findCHighlightNodes f prim.nodes

/-- The highlight-range collection loop of `genLLVMHighlight`
(cmd/explore/main.go): resolve every node name via `findBlock`
(propagating NotFound) and locate each block's text in the function text
via `lineRangeOfBlock` (whose Go panic on failure is modelled as an
error). -/
def genLLVMHighlightNodes (f : Func) :
    List String → Except String (List (Nat × Nat))
  | [] => Except.ok []
  | blockName :: rest =>
    match findBlock f blockName with
    | Except.error e => Except.error e
    | Except.ok block =>
      match lineRangeOfBlock f.text block.text with
      | none => Except.error "unable to locate contents of basic block"
      | some r =>
        match genLLVMHighlightNodes f rest with
        | Except.error e => Except.error e
        | Except.ok rs => Except.ok (r :: rs)

/-- Model of the highlight-range computation of `genLLVMHighlight`. -/
def genLLVMHighlight (f : Func) (prim : Primitive) :
    Except String (List (Nat × Nat)) :=
  genLLVMHighlightNodes f prim.nodes

/-! ## Auxiliary predicates on debug attachments -/

/-- Whether a metadata node is directly a `DILocation`. -/
def isDILocation : MDNode → Bool
  | MDNode.dilocation _ => true
  | _ => false

/-- An attachment named "dbg" whose node is directly a `DILocation`: the
condition under which `findLine` accepts an attachment. -/
def isDirectDbg (md : Attachment) : Bool :=
  md.name == "dbg" && isDILocation md.node

/-- The value carries a "dbg" attachment with a direct `DILocation` node
(the condition under which `findLine` succeeds on its attachments). -/
def hasDbgLoc (as : List Attachment) : Bool :=
  as.any isDirectDbg

/-- An attachment named "dbg" whose node resolves through `diLocation`
(one `Def` unwrap allowed): the condition under which
`lineRangeOfBlockInC` emits a range for an attachment. -/
def isDbgLocC (md : Attachment) : Bool :=
  md.name == "dbg" && (diLocation md.node).isSome

/-- The value carries a "dbg" attachment resolving through `diLocation`. -/
def hasDbgLocC (as : List Attachment) : Bool :=
  as.any isDbgLocC

/-- Whether a metadata node is a `metadata.Def` wrapper. -/
def isMdDef : MDNode → Bool
  | MDNode.mdDef _ => true
  | _ => false

/-! ## decompGo temp-directory lifecycle model -/

/-- The outcomes of the fallible steps of one `decompGo` call: temp-dir
creation (`ioutil.TempDir`), LLVM IR copy, graphs-dir creation, JSON
write, and the `ll2go2` subprocess run. -/
structure DecompRun where
  tempDirOk : Bool
  copyOk : Bool
  mkdirOk : Bool
  writeJSONOk : Bool
  cmdRunOk : Bool
deriving Repr, DecidableEq

/-- The observable outcome of one `decompGo` call: whether it returned
without error, whether the temp staging dir was created, and whether the
dir was removed by the time the call exited. -/
structure DecompReport where
  ok : Bool
  tmpDirCreated : Bool
  tmpDirRemoved : Bool
deriving Repr, DecidableEq

/-- Model of `decompGo` (cmd/explore/output_go.go): `defer
os.RemoveAll(tmpDir)` is registered immediately after the temp dir is
created, so every subsequent exit path — error or success — removes the
dir; when `ioutil.TempDir` itself fails no dir exists. -/
def decompGo_outputGo (r : DecompRun) : DecompReport :=
  if !r.tempDirOk then ⟨false, false, false⟩
  else if !r.copyOk then ⟨false, true, true⟩
  else if !r.mkdirOk then ⟨false, true, true⟩
  else if !r.writeJSONOk then ⟨false, true, true⟩
  else if !r.cmdRunOk then ⟨false, true, true⟩
  else ⟨true, true, true⟩

/-- Model of `decompGo` (cmd/explore/main.go; the `decompGo` methods of
part_007 and the `Explorer` variant are identical in this respect): the
temp dir is created but no exit path removes it. -/
def decompGo_main (r : DecompRun) : DecompReport :=
  if !r.tempDirOk then ⟨false, false, false⟩
  else if !r.copyOk then ⟨false, true, false⟩
  else if !r.mkdirOk then ⟨false, true, false⟩
  else if !r.writeJSONOk then ⟨false, true, false⟩
  else if !r.cmdRunOk then ⟨false, true, false⟩
  else ⟨true, true, false⟩

/-! ## Concrete inputs used by counterexamples and witnesses -/

/-- The block text of the spec scenario: two lines plus a trailing
newline, hence two newline characters. -/
def c4Block : List Char := "bb1:\n  ret void\n".toList

/-- A function text in which `c4Block` first occurs preceded by exactly 9
newlines, i.e. starting at absolute line 10. -/
def c4Container : List Char :=
  "l1\nl2\nl3\nl4\nl5\nl6\nl7\nl8\nl9\nbb1:\n  ret void\nnext".toList

/-- A function with a single block `bb1` whose text occurs in the
function text, for the highlight-resolution witness. -/
def c7Func : Func :=
  ⟨"main", [⟨"bb1", [], ⟨[]⟩, "bb1:\n  ret void".toList⟩],
    "define main\nbb1:\n  ret void\nend".toList⟩

/-- A block whose sole instruction carries a "dbg" attachment with a
`Def`-wrapped `DILocation`: `lineRangeOfBlockInC` unwraps the wrapper
and emits `(5, 5)` while `findBlockLines` does not. -/
def c10Block : Block :=
  ⟨"bb", [⟨[⟨"dbg", MDNode.mdDef (MDNode.dilocation 5)⟩]⟩], ⟨[]⟩, []⟩

/-- A block whose instructions carry at most one "dbg" attachment each,
none with a `Def`-wrapped node. -/
def c10GoodBlock : Block :=
  ⟨"bb", [⟨[⟨"dbg", MDNode.dilocation 3⟩]⟩, ⟨[]⟩],
    ⟨[⟨"dbg", MDNode.dilocation 7⟩]⟩, []⟩

/-! ## Lemmas on `stringsIndex` -/

theorem stringsIndex_some {s sub : List Char} {pos : Nat}
    (h : stringsIndex s sub = some pos) :
    sub.isPrefixOf (s.drop pos) = true ∧
      ∀ j < pos, sub.isPrefixOf (s.drop j) = false := by
  induction s generalizing pos with
  | nil =>
    unfold stringsIndex at h
    by_cases hp : sub.isPrefixOf ([] : List Char) = true
    · simp [hp] at h
      subst h
      exact ⟨hp, by omega⟩
    · simp [hp] at h
  | cons c rest ih =>
    unfold stringsIndex at h
    by_cases hp : sub.isPrefixOf (c :: rest) = true
    · simp [hp] at h
      subst h
      exact ⟨hp, by omega⟩
    · simp [hp] at h
      obtain ⟨i, hi, rfl⟩ := h
      obtain ⟨h1, h2⟩ := ih hi
      refine ⟨h1, ?_⟩
      intro j hj
      match j with
      | 0 => simpa using Bool.eq_false_iff.mpr hp
      | j' + 1 => exact h2 j' (by omega)

theorem stringsIndex_none {s sub : List Char}
    (h : stringsIndex s sub = none) :
    ∀ j, sub.isPrefixOf (s.drop j) = false := by
  induction s with
  | nil =>
    unfold stringsIndex at h
    by_cases hp : sub.isPrefixOf ([] : List Char) = true
    · simp [hp] at h
    · intro j
      simpa using Bool.eq_false_iff.mpr hp
  | cons c rest ih =>
    unfold stringsIndex at h
    by_cases hp : sub.isPrefixOf (c :: rest) = true
    · simp [hp] at h
    · simp [hp] at h
      intro j
      match j with
      | 0 => simpa using Bool.eq_false_iff.mpr hp
      | j' + 1 => exact ih h j'

/-- `sub` occurs in `s` (as a contiguous infix) iff it is a prefix of some
suffix `s.drop j`. -/
theorem occurs_iff_found {s sub : List Char} :
    (∃ j, sub.isPrefixOf (s.drop j) = true) ↔ sub <:+: s := by
  constructor
  · rintro ⟨j, hj⟩
    rw [List.isPrefixOf_iff_prefix] at hj
    obtain ⟨t, ht⟩ := hj
    exact ⟨s.take j, t, by rw [List.append_assoc, ht, List.take_append_drop]⟩
  · rintro ⟨u, v, huv⟩
    refine ⟨u.length, ?_⟩
    rw [List.isPrefixOf_iff_prefix]
    subst huv
    rw [List.append_assoc, List.drop_left]
    exact ⟨v, rfl⟩

theorem stringsIndex_isSome_of_occurs {s sub : List Char}
    (h : sub <:+: s) : ∃ pos, stringsIndex s sub = some pos := by
  rcases hidx : stringsIndex s sub with _ | pos
  · obtain ⟨j, hj⟩ := occurs_iff_found.mpr h
    rw [stringsIndex_none hidx j] at hj
    cases hj
  · exact ⟨pos, rfl⟩

/-! ## Claim C1: page count and page-to-step mapping -/

/-- C1. For every primitive sequence of length `N`, the total page count is
`1 + 2*N`, and every page `p ∈ [1, pageCount]` maps to a step in `[0, N]`;
the sub-state is `none` iff `p = 1`, and for `p > 1` with `k = p - 1` the
step is `ceil(k/2)` with sub-state `"a"` when `k` is odd and `"b"` when
`k` is even. -/
theorem pageCount_pageToStep_spec (prims : List Primitive) (p : Nat)
    (h1 : 1 ≤ p) (h2 : p ≤ pageCount prims) :
    pageCount prims = 1 + 2 * prims.length ∧
    (pageToStep p).1 ≤ prims.length ∧
    ((pageToStep p).2 = none ↔ p = 1) ∧
    (1 < p →
      (pageToStep p).1 = (p - 1 + 1) / 2 ∧
      ((p - 1) % 2 = 1 → (pageToStep p).2 = some "a") ∧
      ((p - 1) % 2 = 0 → (pageToStep p).2 = some "b")) := by
  refine ⟨rfl, ?_, ?_, ?_⟩
  · by_cases hp : p = 1
    · simp [pageToStep, hp]
    · have hstep : (pageToStep p).1 = (p - 1 + 1) / 2 := by
        simp [pageToStep, hp]
      rw [hstep]
      unfold pageCount at h2
      omega
  · by_cases hp : p = 1
    · simp [pageToStep, hp]
    · constructor
      · intro hnone
        exfalso
        by_cases hk : (p - 1) % 2 = 1 <;> simp [pageToStep, hp, hk] at hnone
      · intro h1'
        exact absurd h1' hp
  · intro hp1
    have hp : p ≠ 1 := by omega
    refine ⟨by simp [pageToStep, hp], ?_, ?_⟩
    · intro hk
      simp [pageToStep, hp, hk]
    · intro hk
      have hk' : ¬ (p - 1) % 2 = 1 := by omega
      simp [pageToStep, hp, hk']

/-- Witness for C1 at `prims = [⟨[]⟩, ⟨[]⟩]` (so `N = 2`, 5 pages) and
page 4 (step 2, sub-state "a"). -/
theorem pageCount_pageToStep_spec_witness :
    (1 ≤ 4 ∧ 4 ≤ pageCount [⟨[]⟩, ⟨[]⟩]) ∧
    (pageCount [(⟨[]⟩ : Primitive), ⟨[]⟩] = 1 + 2 * 2 ∧
      (pageToStep 4).1 ≤ 2 ∧
      ((pageToStep 4).2 = none ↔ 4 = 1) ∧
      (1 < 4 →
        (pageToStep 4).1 = (4 - 1 + 1) / 2 ∧
        ((4 - 1) % 2 = 1 → (pageToStep 4).2 = some "a") ∧
        ((4 - 1) % 2 = 0 → (pageToStep 4).2 = some "b"))) :=
  ⟨⟨by decide, by decide⟩,
    pageCount_pageToStep_spec [⟨[]⟩, ⟨[]⟩] 4 (by decide) (by decide)⟩

/-! ## Claim C2: visible primitive prefixes of the a/b sub-steps -/

/-- C2. For `1 ≤ step ≤ len(prims)`, sub-state `"a"` shows `step - 1`
primitives (`prims[:step-1]`, before merge), sub-state `"b"` shows `step`
primitives (`prims[:step]`, after merge), and the `"b"` list extends the
`"a"` list by exactly the one primitive at index `step - 1`. -/
theorem stepPrims_lengths (prims : List Primitive) (step : Nat)
    (h1 : 1 ≤ step) (h2 : step ≤ prims.length) :
    (stepPrims prims step "a").length = step - 1 ∧
    (stepPrims prims step "b").length = step ∧
    ∃ x, prims[step - 1]? = some x ∧
      stepPrims prims step "b" = stepPrims prims step "a" ++ [x] := by
  have ha : stepPrims prims step "a" = prims.take (step - 1) := by
    unfold stepPrims
    rw [if_pos rfl]
  have hb : stepPrims prims step "b" = prims.take step := by
    unfold stepPrims
    rw [if_neg (by decide), if_pos rfl]
  have hlt : step - 1 < prims.length := by omega
  refine ⟨?_, ?_, ?_⟩
  · rw [ha, List.length_take]
    omega
  · rw [hb, List.length_take]
    omega
  · refine ⟨prims[step - 1], List.getElem?_eq_getElem hlt, ?_⟩
    rw [ha, hb]
    conv_lhs => rw [show step = (step - 1) + 1 by omega]
    rw [List.take_succ, List.getElem?_eq_getElem hlt]
    rfl

/-- Witness for C2 at a three-primitive list and `step = 2`. -/
theorem stepPrims_lengths_witness :
    (1 ≤ 2 ∧ 2 ≤ ([⟨["x"]⟩, ⟨["y"]⟩, ⟨["z"]⟩] : List Primitive).length) ∧
    ((stepPrims [⟨["x"]⟩, ⟨["y"]⟩, ⟨["z"]⟩] 2 "a").length = 2 - 1 ∧
      (stepPrims [⟨["x"]⟩, ⟨["y"]⟩, ⟨["z"]⟩] 2 "b").length = 2 ∧
      ∃ x, ([⟨["x"]⟩, ⟨["y"]⟩, ⟨["z"]⟩] : List Primitive)[2 - 1]? = some x ∧
        stepPrims [⟨["x"]⟩, ⟨["y"]⟩, ⟨["z"]⟩] 2 "b" =
          stepPrims [⟨["x"]⟩, ⟨["y"]⟩, ⟨["z"]⟩] 2 "a" ++ [x]) :=
  ⟨⟨by decide, by decide⟩,
    stepPrims_lengths [⟨["x"]⟩, ⟨["y"]⟩, ⟨["z"]⟩] 2 (by decide) (by decide)⟩

/-! ## Claim C3: the locator finds the first occurrence and counts newlines -/

/-- C3. For every container and substring occurring in it,
`lineRangeOfBlock` locates the first occurrence of the substring, returns
`start = 1 +` (newlines in the container prefix before the match) and
`end = start +` (newlines inside the matched substring). -/
theorem lineRangeOfBlock_first_occurrence {s sub : List Char}
    (h : sub <:+: s) :
    ∃ pos, stringsIndex s sub = some pos ∧
      sub.isPrefixOf (s.drop pos) = true ∧
      (∀ j < pos, sub.isPrefixOf (s.drop j) = false) ∧
      lineRangeOfBlock s sub =
        some (1 + (s.take pos).count '\n',
              (1 + (s.take pos).count '\n') + sub.count '\n') := by
  obtain ⟨pos, hidx⟩ := stringsIndex_isSome_of_occurs h
  obtain ⟨hpre, hfirst⟩ := stringsIndex_some hidx
  exact ⟨pos, hidx, hpre, hfirst, by simp [lineRangeOfBlock, hidx]⟩

/-- Witness for C3: `"bb:\nc"` occurs in `"a\nbb:\nc"`, first at index 2,
preceded by one newline, so the range starts at line 2 and ends at line 3. -/
theorem lineRangeOfBlock_first_occurrence_witness :
    ("bb:\nc".toList <:+: "a\nbb:\nc".toList) ∧
    ∃ pos, stringsIndex "a\nbb:\nc".toList "bb:\nc".toList = some pos ∧
      "bb:\nc".toList.isPrefixOf ("a\nbb:\nc".toList.drop pos) = true ∧
      (∀ j < pos,
        "bb:\nc".toList.isPrefixOf ("a\nbb:\nc".toList.drop j) = false) ∧
      lineRangeOfBlock "a\nbb:\nc".toList "bb:\nc".toList =
        some (1 + ("a\nbb:\nc".toList.take pos).count '\n',
              (1 + ("a\nbb:\nc".toList.take pos).count '\n') +
                "bb:\nc".toList.count '\n') :=
  ⟨by decide, lineRangeOfBlock_first_occurrence (by decide)⟩

/-! ## Claim C6: a missing substring is a hard failure, never a range -/

/-- C6. When the substring does not occur in the container, the Go code
panics (a hard, non-retried internal-consistency failure); in the model,
`lineRangeOfBlock` returns `none` and never a range. -/
theorem lineRangeOfBlock_not_found {s sub : List Char}
    (h : ¬ sub <:+: s) : lineRangeOfBlock s sub = none := by
  rcases hidx : stringsIndex s sub with _ | pos
  · simp [lineRangeOfBlock, hidx]
  · obtain ⟨hpre, -⟩ := stringsIndex_some hidx
    exact absurd (occurs_iff_found.mp ⟨pos, hpre⟩) h

/-- Witness for C6: `"x"` does not occur in `"abc"`. -/
theorem lineRangeOfBlock_not_found_witness :
    ¬ ("x".toList <:+: "abc".toList) ∧
    lineRangeOfBlock "abc".toList "x".toList = none :=
  ⟨by decide, lineRangeOfBlock_not_found (by decide)⟩

/-! ## Claim C4: the scenario block starting at absolute line 10 -/

/-- C4 counterexample. For the scenario block text (which contains two
newlines) starting at absolute line 10, `lineRangeOfBlock` returns
`(10, 12)` — `end = start + 2` — and not `(10, 11)` as the claim states. -/
theorem lineRangeOfBlock_scenario_cex :
    lineRangeOfBlock c4Container c4Block = some (10, 12) ∧
    lineRangeOfBlock c4Container c4Block ≠ some (10, 11) := by
  constructor <;> decide

/-- C4 amended. For every container in which the scenario block text
`"bb1:\n  ret void\n"` first occurs preceded by exactly 9 newlines (so it
starts at absolute line 10), `lineRangeOfBlock` returns `(10, 12)`:
the trailing newline of the block text counts towards the inclusive end
line. -/
theorem lineRangeOfBlock_scenario_amended (s : List Char) (pos : Nat)
    (hidx : stringsIndex s c4Block = some pos)
    (hnl : (s.take pos).count '\n' = 9) :
    lineRangeOfBlock s c4Block = some (10, 12) := by
  have hc : c4Block.count '\n' = 2 := by decide
  simp [lineRangeOfBlock, hidx, hnl, hc]

/-- Witness for the amended C4 at the concrete container `c4Container`
(match at character index 27, after 9 newlines). -/
theorem lineRangeOfBlock_scenario_amended_witness :
    (stringsIndex c4Container c4Block = some 27 ∧
      (c4Container.take 27).count '\n' = 9) ∧
    lineRangeOfBlock c4Container c4Block = some (10, 12) :=
  ⟨⟨by decide, by decide⟩,
    lineRangeOfBlock_scenario_amended c4Container 27 (by decide) (by decide)⟩

/-! ## Line-splitting lemmas for the round-trip claim C5 -/

theorem splitLines_cons_newline (cs : List Char) :
    splitLines ('\n' :: cs) = [] :: splitLines cs := by
  conv_lhs => unfold splitLines
  rw [if_pos rfl]

theorem splitLines_cons_other {c : Char} (hc : c ≠ '\n') (cs : List Char) :
    splitLines (c :: cs) =
      match splitLines cs with
      | [] => [[c]]
      | l :: ls => (c :: l) :: ls := by
  conv_lhs => unfold splitLines
  rw [if_neg hc]

theorem joinLines_cons_cons (l l2 : List Char) (ls : List (List Char)) :
    joinLines (l :: l2 :: ls) = l ++ '\n' :: joinLines (l2 :: ls) := rfl

theorem splitLines_nil : splitLines [] = [[]] := rfl

theorem splitLines_ne_nil (s : List Char) : splitLines s ≠ [] := by
  cases s with
  | nil => simp [splitLines]
  | cons c cs =>
    by_cases hc : c = '\n'
    · subst hc
      rw [splitLines_cons_newline]
      simp
    · rw [splitLines_cons_other hc]
      rcases h : splitLines cs with _ | ⟨l, ls⟩ <;> simp

theorem length_splitLines (s : List Char) :
    (splitLines s).length = s.count '\n' + 1 := by
  induction s with
  | nil => rfl
  | cons c cs ih =>
    by_cases hc : c = '\n'
    · subst hc
      rw [splitLines_cons_newline, List.length_cons, ih, List.count_cons_self]
    · rw [splitLines_cons_other hc, List.count_cons_of_ne (Ne.symm hc)]
      rcases h : splitLines cs with _ | ⟨l, ls⟩
      · exact absurd h (splitLines_ne_nil cs)
      · rw [h] at ih
        simpa using ih

theorem splitLines_append_newline (xs ys : List Char) :
    splitLines (xs ++ '\n' :: ys) = splitLines xs ++ splitLines ys := by
  induction xs with
  | nil =>
    rw [List.nil_append, splitLines_cons_newline]
    rfl
  | cons c cs ih =>
    by_cases hc : c = '\n'
    · subst hc
      rw [List.cons_append, splitLines_cons_newline, splitLines_cons_newline,
        ih]
      rfl
    · rw [List.cons_append, splitLines_cons_other hc,
        splitLines_cons_other hc, ih]
      rcases h : splitLines cs with _ | ⟨l, ls⟩
      · exact absurd h (splitLines_ne_nil cs)
      · rfl

theorem joinLines_splitLines (s : List Char) :
    joinLines (splitLines s) = s := by
  induction s with
  | nil => rfl
  | cons c cs ih =>
    by_cases hc : c = '\n'
    · subst hc
      rw [splitLines_cons_newline]
      rcases h : splitLines cs with _ | ⟨l, ls⟩
      · exact absurd h (splitLines_ne_nil cs)
      · rw [h] at ih
        rw [joinLines_cons_cons, List.nil_append, ih]
    · rw [splitLines_cons_other hc]
      rcases h : splitLines cs with _ | ⟨l, ls⟩
      · exact absurd h (splitLines_ne_nil cs)
      · rw [h] at ih
        cases ls with
        | nil =>
          show c :: l = c :: cs
          rw [show joinLines [l] = l from rfl] at ih
          rw [ih]
        | cons l2 ls2 =>
          show joinLines ((c :: l) :: l2 :: ls2) = c :: cs
          rw [joinLines_cons_cons] at ih
          rw [joinLines_cons_cons]
          show c :: (l ++ '\n' :: joinLines (l2 :: ls2)) = c :: cs
          rw [ih]

/-- Extracting the middle line block: when `M` sits between a prefix `P`
that is empty or ends in a newline and a suffix `S` that is empty or
starts with a newline, taking the `M.count newline + 1` lines after the
first `P.count newline` lines of `P ++ M ++ S` reproduces `M`. -/
theorem extract_middle (P M S : List Char)
    (hP : P = [] ∨ ∃ pr, P = pr ++ ['\n'])
    (hS : S = [] ∨ ∃ sr, S = '\n' :: sr) :
    joinLines (((splitLines (P ++ M ++ S)).drop (P.count '\n')).take
      (M.count '\n' + 1)) = M := by
  rcases hP with rfl | ⟨pr, rfl⟩ <;> rcases hS with rfl | ⟨sr, rfl⟩
  · simp only [List.nil_append, List.append_nil, List.count_nil,
      List.drop_zero]
    rw [← length_splitLines, List.take_length, joinLines_splitLines]
  · simp only [List.nil_append, List.count_nil, List.drop_zero]
    rw [splitLines_append_newline, ← length_splitLines, List.take_left,
      joinLines_splitLines]
  · rw [List.append_nil, List.append_assoc, List.singleton_append,
      splitLines_append_newline]
    have hcnt : (pr ++ ['\n']).count '\n' = (splitLines pr).length := by
      rw [List.count_append, length_splitLines]
      rfl
    rw [hcnt, List.drop_left, ← length_splitLines, List.take_length,
      joinLines_splitLines]
  · rw [List.append_assoc, List.append_assoc, List.singleton_append,
      splitLines_append_newline, splitLines_append_newline]
    have hcnt : (pr ++ ['\n']).count '\n' = (splitLines pr).length := by
      rw [List.count_append, length_splitLines]
      rfl
    rw [hcnt, List.drop_left, ← length_splitLines, List.take_left,
      joinLines_splitLines]

/-! ## Claim C5: locate-then-extract round-trip -/

/-- C5. For every function text and block text occurring in it (first
occurrence at `pos`, with the block text occupying whole lines: the
preceding prefix is empty or ends with a newline, and the following
suffix is empty or starts with a newline), extracting the lines numbered
`start..end` returned by `lineRangeOfBlock` reproduces the block text
byte-for-byte. -/
theorem lineRangeOfBlock_roundTrip {funcStr blockStr : List Char}
    {pos : Nat}
    (hidx : stringsIndex funcStr blockStr = some pos)
    (hstart : funcStr.take pos = [] ∨
      ∃ pr, funcStr.take pos = pr ++ ['\n'])
    (hend : funcStr.drop (pos + blockStr.length) = [] ∨
      ∃ sr, funcStr.drop (pos + blockStr.length) = '\n' :: sr) :
    ∃ st en, lineRangeOfBlock funcStr blockStr = some (st, en) ∧
      extractLines funcStr st en = blockStr := by
  have hpre := (stringsIndex_some hidx).1
  rw [List.isPrefixOf_iff_prefix] at hpre
  have hmid : blockStr ++ funcStr.drop (pos + blockStr.length) =
      funcStr.drop pos := by
    have h := List.prefix_iff_eq_append.mp hpre
    rwa [List.drop_drop] at h
  have hdecomp : funcStr =
      funcStr.take pos ++ blockStr ++
        funcStr.drop (pos + blockStr.length) := by
    rw [List.append_assoc, hmid, List.take_append_drop]
  refine ⟨1 + (funcStr.take pos).count '\n',
    1 + (funcStr.take pos).count '\n' + blockStr.count '\n', ?_, ?_⟩
  · simp [lineRangeOfBlock, hidx]
  · unfold extractLines
    have har1 : 1 + (funcStr.take pos).count '\n' - 1 =
        (funcStr.take pos).count '\n' := by omega
    have har2 : 1 + (funcStr.take pos).count '\n' + blockStr.count '\n' -
        (1 + (funcStr.take pos).count '\n') + 1 = blockStr.count '\n' + 1 := by
      omega
    rw [har1, har2]
    have h := extract_middle (funcStr.take pos) blockStr
      (funcStr.drop (pos + blockStr.length)) hstart hend
    rwa [← hdecomp] at h

/-- Witness for C5: block `"bb1:\n  ret void"` inside
`"hdr\nbb1:\n  ret void\nrest"`, first occurring at index 4 after the
newline-terminated prefix `"hdr\n"` and followed by `"\nrest"`. -/
theorem lineRangeOfBlock_roundTrip_witness :
    (stringsIndex "hdr\nbb1:\n  ret void\nrest".toList
        "bb1:\n  ret void".toList = some 4) ∧
    ∃ st en,
      lineRangeOfBlock "hdr\nbb1:\n  ret void\nrest".toList
        "bb1:\n  ret void".toList = some (st, en) ∧
      extractLines "hdr\nbb1:\n  ret void\nrest".toList st en =
        "bb1:\n  ret void".toList :=
  ⟨by decide,
    @lineRangeOfBlock_roundTrip "hdr\nbb1:\n  ret void\nrest".toList
      "bb1:\n  ret void".toList 4 (by decide)
      (Or.inr ⟨"hdr".toList, by decide⟩)
      (Or.inr ⟨"rest".toList, by decide⟩)⟩

/-! ## Lemmas on `findBlockIn` -/

theorem findBlockIn_error {blocks : List Block} {n : String}
    (h : ∀ b ∈ blocks, b.name ≠ n) :
    findBlockIn blocks n = Except.error "unable to locate basic block" := by
  induction blocks with
  | nil => rfl
  | cons b bs ih =>
    unfold findBlockIn
    rw [if_neg (h b (by simp))]
    exact ih fun b' hb' => h b' (by simp [hb'])

theorem findBlockIn_ok {blocks : List Block} {n : String}
    (h : ∃ b ∈ blocks, b.name = n) :
    ∃ b, findBlockIn blocks n = Except.ok b ∧ b ∈ blocks ∧ b.name = n := by
  induction blocks with
  | nil => simp at h
  | cons b bs ih =>
    by_cases hb : b.name = n
    · exact ⟨b, by unfold findBlockIn; rw [if_pos hb], by simp, hb⟩
    · obtain ⟨b', hb', hname⟩ := h
      rcases List.mem_cons.mp hb' with rfl | hmem
      · exact absurd hname hb
      · obtain ⟨b2, h1, h2, h3⟩ := ih ⟨b', hmem, hname⟩
        refine ⟨b2, ?_, by simp [h2], h3⟩
        unfold findBlockIn
        rw [if_neg hb]
        exact h1

theorem lineRangeOfBlock_isSome_of_occurs {s sub : List Char}
    (h : sub <:+: s) : ∃ r, lineRangeOfBlock s sub = some r := by
  obtain ⟨pos, hidx⟩ := stringsIndex_isSome_of_occurs h
  refine ⟨(1 + (s.take pos).count '\n',
    1 + (s.take pos).count '\n' + sub.count '\n'), ?_⟩
  simp [lineRangeOfBlock, hidx]

/-! ## Lemmas on the highlight node loops -/

theorem findCHighlightNodes_error (f : Func) (nodes : List String)
    (h : ∃ n ∈ nodes, ∀ b ∈ f.blocks, b.name ≠ n) :
    findCHighlightNodes f nodes =
      Except.error "unable to locate basic block" := by
  induction nodes with
  | nil => simp at h
  | cons n0 rest ih =>
    unfold findCHighlightNodes
    by_cases hn0 : ∀ b ∈ f.blocks, b.name ≠ n0
    · rw [show findBlock f n0 = Except.error "unable to locate basic block"
        from findBlockIn_error hn0]
    · obtain ⟨n, hn, hmiss⟩ := h
      rcases List.mem_cons.mp hn with rfl | hmem
      · exact absurd hmiss hn0
      · push_neg at hn0
        obtain ⟨b2, hok, -, -⟩ := findBlockIn_ok hn0
        rw [show findBlock f n0 = Except.ok b2 from hok,
          ih ⟨n, hmem, hmiss⟩]

theorem findCHighlightNodes_ok (f : Func) (nodes : List String)
    (h : ∀ n ∈ nodes, ∃ b ∈ f.blocks, b.name = n) :
    ∃ rs, findCHighlightNodes f nodes = Except.ok rs := by
  induction nodes with
  | nil => exact ⟨[], rfl⟩
  | cons n0 rest ih =>
    obtain ⟨b2, hok, -, -⟩ := findBlockIn_ok (h n0 (by simp))
    obtain ⟨rs, hrs⟩ := ih fun n hn => h n (by simp [hn])
    refine ⟨findBlockLines b2 ++ rs, ?_⟩
    unfold findCHighlightNodes
    rw [show findBlock f n0 = Except.ok b2 from hok, hrs]

theorem genLLVMHighlightNodes_error (f : Func) (nodes : List String)
    (htext : ∀ b ∈ f.blocks, b.text <:+: f.text)
    (h : ∃ n ∈ nodes, ∀ b ∈ f.blocks, b.name ≠ n) :
    genLLVMHighlightNodes f nodes =
      Except.error "unable to locate basic block" := by
  induction nodes with
  | nil => simp at h
  | cons n0 rest ih =>
    unfold genLLVMHighlightNodes
    by_cases hn0 : ∀ b ∈ f.blocks, b.name ≠ n0
    · rw [show findBlock f n0 = Except.error "unable to locate basic block"
        from findBlockIn_error hn0]
    · obtain ⟨n, hn, hmiss⟩ := h
      rcases List.mem_cons.mp hn with rfl | hmem
      · exact absurd hmiss hn0
      · push_neg at hn0
        obtain ⟨b2, hok, hmem2, -⟩ := findBlockIn_ok hn0
        obtain ⟨r, hr⟩ := lineRangeOfBlock_isSome_of_occurs (htext b2 hmem2)
        have hfb : findBlock f n0 = Except.ok b2 := hok
        simp only [hfb, hr, ih ⟨n, hmem, hmiss⟩]

theorem genLLVMHighlightNodes_ok (f : Func) (nodes : List String)
    (htext : ∀ b ∈ f.blocks, b.text <:+: f.text)
    (h : ∀ n ∈ nodes, ∃ b ∈ f.blocks, b.name = n) :
    ∃ rs, genLLVMHighlightNodes f nodes = Except.ok rs := by
  induction nodes with
  | nil => exact ⟨[], rfl⟩
  | cons n0 rest ih =>
    obtain ⟨b2, hok, hmem2, -⟩ := findBlockIn_ok (h n0 (by simp))
    obtain ⟨r, hr⟩ := lineRangeOfBlock_isSome_of_occurs (htext b2 hmem2)
    obtain ⟨rs, hrs⟩ := ih fun n hn => h n (by simp [hn])
    refine ⟨r :: rs, ?_⟩
    unfold genLLVMHighlightNodes
    have hfb : findBlock f n0 = Except.ok b2 := hok
    simp only [hfb, hr, hrs]

/-! ## Claim C7: NotFound on missing block names, success otherwise -/

/-- C7. For every function whose block texts occur in its text (true of
`LLString` renderings) and every primitive: if some name in the
primitive's `Nodes` matches no block of the function, both
`findCHighlight` and the `genLLVMHighlight` range computation return the
NotFound error of `findBlock` and produce no range list; if every name
resolves, both succeed. -/
theorem highlight_resolution (f : Func) (prim : Primitive)
    (htext : ∀ b ∈ f.blocks, b.text <:+: f.text) :
    ((∃ n ∈ prim.nodes, ∀ b ∈ f.blocks, b.name ≠ n) →
      findCHighlight f prim =
        Except.error "unable to locate basic block" ∧
      genLLVMHighlight f prim =
        Except.error "unable to locate basic block") ∧
    ((∀ n ∈ prim.nodes, ∃ b ∈ f.blocks, b.name = n) →
      (∃ rs, findCHighlight f prim = Except.ok rs) ∧
      (∃ rs, genLLVMHighlight f prim = Except.ok rs)) := by
  constructor
  · intro h
    exact ⟨findCHighlightNodes_error f prim.nodes h,
      genLLVMHighlightNodes_error f prim.nodes htext h⟩
  · intro h
    exact ⟨findCHighlightNodes_ok f prim.nodes h,
      genLLVMHighlightNodes_ok f prim.nodes htext h⟩

/-- Witness for C7 at `c7Func` and the spec's error-scenario primitive
`{Nodes: [bb_missing]}`. -/
theorem highlight_resolution_witness :
    (∀ b ∈ c7Func.blocks, b.text <:+: c7Func.text) ∧
    (((∃ n ∈ (⟨["bb_missing"]⟩ : Primitive).nodes,
        ∀ b ∈ c7Func.blocks, b.name ≠ n) →
      findCHighlight c7Func ⟨["bb_missing"]⟩ =
        Except.error "unable to locate basic block" ∧
      genLLVMHighlight c7Func ⟨["bb_missing"]⟩ =
        Except.error "unable to locate basic block") ∧
    ((∀ n ∈ (⟨["bb_missing"]⟩ : Primitive).nodes,
        ∃ b ∈ c7Func.blocks, b.name = n) →
      (∃ rs, findCHighlight c7Func ⟨["bb_missing"]⟩ = Except.ok rs) ∧
      (∃ rs, genLLVMHighlight c7Func ⟨["bb_missing"]⟩ = Except.ok rs))) :=
  ⟨by decide, highlight_resolution c7Func ⟨["bb_missing"]⟩ (by decide)⟩

/-! ## Lemmas on `findLine` and `dbgRangesOfAttachments` -/

theorem findLine_isSome (as : List Attachment) :
    (findLine as).isSome = hasDbgLoc as := by
  induction as with
  | nil => rfl
  | cons md rest ih =>
    unfold findLine
    have hgoal : hasDbgLoc (md :: rest) =
        (isDirectDbg md || hasDbgLoc rest) := by
      unfold hasDbgLoc
      rw [List.any_cons]
    by_cases hname : md.name = "dbg"
    · rw [if_pos hname]
      rcases hnode : md.node with l | n | _
      · rw [hgoal]
        have hmd : isDirectDbg md = true := by
          unfold isDirectDbg
          rw [hname, hnode]
          rfl
        rw [hmd]
        rfl
      · rw [hgoal]
        have hmd : isDirectDbg md = false := by
          unfold isDirectDbg
          rw [hnode]
          simp [isDILocation]
        rw [hmd]
        simpa using ih
      · rw [hgoal]
        have hmd : isDirectDbg md = false := by
          unfold isDirectDbg
          rw [hnode]
          simp [isDILocation]
        rw [hmd]
        simpa using ih
    · rw [if_neg hname]
      rw [hgoal]
      have hmd : isDirectDbg md = false := by
        unfold isDirectDbg
        simp [hname]
      rw [hmd]
      simpa using ih

theorem findLine_single {as : List Attachment} {r : Nat × Nat}
    (h : findLine as = some r) : r.1 = r.2 := by
  induction as with
  | nil => cases h
  | cons md rest ih =>
    unfold findLine at h
    by_cases hname : md.name = "dbg"
    · rw [if_pos hname] at h
      rcases hnode : md.node with l | n | _
      · rw [hnode] at h
        cases h
        rfl
      · rw [hnode] at h
        exact ih h
      · rw [hnode] at h
        exact ih h
    · rw [if_neg hname] at h
      exact ih h

theorem findLine_eq_none_of_no_dbg {as : List Attachment}
    (h : ∀ md ∈ as, (md.name == "dbg") = false) : findLine as = none := by
  induction as with
  | nil => rfl
  | cons md rest ih =>
    have hname : md.name ≠ "dbg" := by simpa using h md (by simp)
    unfold findLine
    rw [if_neg hname]
    exact ih fun md' hmd' => h md' (by simp [hmd'])

theorem dbgRanges_eq_nil_of_no_dbg {as : List Attachment}
    (h : ∀ md ∈ as, (md.name == "dbg") = false) :
    dbgRangesOfAttachments as = [] := by
  induction as with
  | nil => rfl
  | cons md rest ih =>
    have hname : md.name ≠ "dbg" := by simpa using h md (by simp)
    have hrest := ih fun md' hmd' => h md' (by simp [hmd'])
    unfold dbgRangesOfAttachments at hrest ⊢
    rw [List.filterMap_cons, if_neg hname]
    exact hrest

theorem hasDbgLocC_eq_false_of_no_dbg {as : List Attachment}
    (h : ∀ md ∈ as, (md.name == "dbg") = false) :
    hasDbgLocC as = false := by
  unfold hasDbgLocC
  rw [List.any_eq_false]
  intro md hmd
  unfold isDbgLocC
  rw [h md hmd]
  simp

/-- When an attachment list contains at most one "dbg" attachment and the
head is one, the tail contains none. -/
theorem no_dbg_in_rest {md : Attachment} {rest : List Attachment}
    (hname : md.name = "dbg")
    (h : ((md :: rest).filter fun a => a.name == "dbg").length ≤ 1) :
    ∀ a ∈ rest, (a.name == "dbg") = false := by
  have hpmd : (md.name == "dbg") = true := by simp [hname]
  rw [List.filter_cons, if_pos hpmd, List.length_cons] at h
  have hfr : (rest.filter fun a => a.name == "dbg") = [] :=
    List.length_eq_zero.mp (by omega)
  intro a ha
  by_contra hcon
  have : a ∈ rest.filter fun a => a.name == "dbg" :=
    List.mem_filter.mpr ⟨ha, by simpa using hcon⟩
  rw [hfr] at this
  cases this

/-- Per-value range count of `lineRangeOfBlockInC` when the value carries
at most one "dbg" attachment. -/
theorem length_dbgRanges {as : List Attachment}
    (h : (as.filter fun md => md.name == "dbg").length ≤ 1) :
    (dbgRangesOfAttachments as).length =
      if hasDbgLocC as then 1 else 0 := by
  induction as with
  | nil => rfl
  | cons md rest ih =>
    by_cases hname : md.name = "dbg"
    · have hrest0 := no_dbg_in_rest hname h
      have hrnil := dbgRanges_eq_nil_of_no_dbg hrest0
      have hany := hasDbgLocC_eq_false_of_no_dbg hrest0
      rcases hloc : diLocation md.node with _ | l
      · have hlhs : dbgRangesOfAttachments (md :: rest) =
            dbgRangesOfAttachments rest := by
          unfold dbgRangesOfAttachments
          rw [List.filterMap_cons, if_pos hname, hloc]
          rfl
        have hrhs : hasDbgLocC (md :: rest) = false := by
          unfold hasDbgLocC at hany ⊢
          rw [List.any_cons, hany]
          simp [isDbgLocC, hloc]
        rw [hlhs, hrnil, hrhs]
        rfl
      · have hlhs : dbgRangesOfAttachments (md :: rest) =
            (l, l) :: dbgRangesOfAttachments rest := by
          unfold dbgRangesOfAttachments
          rw [List.filterMap_cons, if_pos hname, hloc]
          rfl
        have hrhs : hasDbgLocC (md :: rest) = true := by
          unfold hasDbgLocC
          rw [List.any_cons]
          simp [isDbgLocC, hname, hloc]
        rw [hlhs, hrnil, hrhs]
        rfl
    · have hrest : (rest.filter fun md => md.name == "dbg").length ≤ 1 := by
        rw [List.filter_cons, if_neg (by simpa using hname)] at h
        exact h
      have hlhs : dbgRangesOfAttachments (md :: rest) =
          dbgRangesOfAttachments rest := by
        unfold dbgRangesOfAttachments
        rw [List.filterMap_cons, if_neg hname]
      have hrhs : hasDbgLocC (md :: rest) = hasDbgLocC rest := by
        unfold hasDbgLocC
        rw [List.any_cons]
        have hmd : isDbgLocC md = false := by simp [isDbgLocC, hname]
        rw [hmd]
        simp
      rw [hlhs, hrhs, ih hrest]

theorem dbgRanges_single {as : List Attachment} {r : Nat × Nat}
    (h : r ∈ dbgRangesOfAttachments as) : r.1 = r.2 := by
  unfold dbgRangesOfAttachments at h
  obtain ⟨md, -, hmd⟩ := List.mem_filterMap.mp h
  by_cases hname : md.name = "dbg"
  · rw [if_pos hname] at hmd
    rcases hloc : diLocation md.node with _ | l
    · rw [hloc] at hmd
      cases hmd
    · rw [hloc] at hmd
      cases hmd
      rfl
  · rw [if_neg hname] at hmd
    cases hmd

theorem length_filterMap_findLine (vals : List Value) :
    (vals.filterMap fun v => findLine v.mdAttachments).length =
      (vals.filter fun v => hasDbgLoc v.mdAttachments).length := by
  induction vals with
  | nil => rfl
  | cons v rest ih =>
    rcases hfl : findLine v.mdAttachments with _ | r
    · have hfalse : hasDbgLoc v.mdAttachments = false := by
        rw [← findLine_isSome, hfl]
        rfl
      rw [List.filterMap_cons, List.filter_cons]
      simp only [hfl, hfalse]
      exact ih
    · have htrue : hasDbgLoc v.mdAttachments = true := by
        rw [← findLine_isSome, hfl]
        rfl
      rw [List.filterMap_cons, List.filter_cons]
      simp only [hfl, htrue, if_pos, List.length_cons]
      rw [ih]

theorem length_flatten_dbg (vals : List Value)
    (h : ∀ v ∈ vals,
      (v.mdAttachments.filter fun md => md.name == "dbg").length ≤ 1) :
    ((vals.map fun v =>
      dbgRangesOfAttachments v.mdAttachments).flatten).length =
      (vals.filter fun v => hasDbgLocC v.mdAttachments).length := by
  induction vals with
  | nil => rfl
  | cons v rest ih =>
    have hv := length_dbgRanges (h v (by simp))
    have hrest := ih fun v' hv' => h v' (by simp [hv'])
    rw [List.map_cons, List.flatten_cons, List.length_append, hv,
      List.filter_cons]
    by_cases hc : hasDbgLocC v.mdAttachments = true
    · rw [if_pos hc, if_pos hc, List.length_cons]
      omega
    · rw [if_neg hc, if_neg hc]
      omega

/-! ## Claim C8: source-line highlighting emits one range per annotated
value and silently skips the rest -/

/-- C8. For every basic block: `findBlockLines` (and, when every value
carries at most one "dbg" attachment, `lineRangeOfBlockInC`) walks the
instructions followed by the terminator and emits exactly one range per
value carrying a "dbg" source-location annotation — so its length equals
the number of annotated values, values without the annotation are
silently skipped, every emitted range is a single line `(line, line)`,
and a block with no annotated values yields the empty list (a valid
result; both functions are total and never signal an error). -/
theorem sourceLine_highlight_spec (block : Block)
    (h1 : ∀ v ∈ block.insts ++ [block.term],
      (v.mdAttachments.filter fun md => md.name == "dbg").length ≤ 1) :
    (findBlockLines block).length =
      ((block.insts ++ [block.term]).filter fun v =>
        hasDbgLoc v.mdAttachments).length ∧
    (∀ r ∈ findBlockLines block, r.1 = r.2) ∧
    (lineRangeOfBlockInC block).length =
      ((block.insts ++ [block.term]).filter fun v =>
        hasDbgLocC v.mdAttachments).length ∧
    (∀ r ∈ lineRangeOfBlockInC block, r.1 = r.2) ∧
    ((∀ v ∈ block.insts ++ [block.term],
        hasDbgLoc v.mdAttachments = false) →
      findBlockLines block = []) := by
  refine ⟨length_filterMap_findLine _, ?_, length_flatten_dbg _ h1, ?_, ?_⟩
  · intro r hr
    unfold findBlockLines at hr
    obtain ⟨v, -, hv⟩ := List.mem_filterMap.mp hr
    exact findLine_single hv
  · intro r hr
    unfold lineRangeOfBlockInC at hr
    rw [List.mem_flatten] at hr
    obtain ⟨l, hl, hrl⟩ := hr
    obtain ⟨v, -, rfl⟩ := List.mem_map.mp hl
    exact dbgRanges_single hrl
  · intro hnone
    unfold findBlockLines
    rw [List.filterMap_eq_nil_iff]
    intro v hv
    have hs := findLine_isSome v.mdAttachments
    rw [hnone v hv] at hs
    rcases hfl : findLine v.mdAttachments with _ | r
    · rfl
    · rw [hfl] at hs
      simp at hs

/-- Witness for C8 at a block with one annotated instruction, one
unannotated instruction and an annotated terminator. -/
theorem sourceLine_highlight_spec_witness :
    (∀ v ∈ c10GoodBlock.insts ++ [c10GoodBlock.term],
      (v.mdAttachments.filter fun md => md.name == "dbg").length ≤ 1) ∧
    ((findBlockLines c10GoodBlock).length =
      ((c10GoodBlock.insts ++ [c10GoodBlock.term]).filter fun v =>
        hasDbgLoc v.mdAttachments).length ∧
    (∀ r ∈ findBlockLines c10GoodBlock, r.1 = r.2) ∧
    (lineRangeOfBlockInC c10GoodBlock).length =
      ((c10GoodBlock.insts ++ [c10GoodBlock.term]).filter fun v =>
        hasDbgLocC v.mdAttachments).length ∧
    (∀ r ∈ lineRangeOfBlockInC c10GoodBlock, r.1 = r.2) ∧
    ((∀ v ∈ c10GoodBlock.insts ++ [c10GoodBlock.term],
        hasDbgLoc v.mdAttachments = false) →
      findBlockLines c10GoodBlock = [])) :=
  ⟨by decide, sourceLine_highlight_spec c10GoodBlock (by decide)⟩

/-! ## Claim C10: the two source-line lookup variants -/

theorem flatten_map_toList_eq_filterMap {α β : Type _} (f : α → Option β)
    (l : List α) :
    (l.map fun a => (f a).toList).flatten = l.filterMap f := by
  induction l with
  | nil => rfl
  | cons a rest ih =>
    rw [List.map_cons, List.flatten_cons, List.filterMap_cons]
    rcases h : f a with _ | b
    · simpa using ih
    · simpa using ih

/-- Per-value agreement of the two lookup variants when the value has at
most one "dbg" attachment and none of its "dbg" nodes is a `metadata.Def`
wrapper. -/
theorem dbgRanges_eq_findLine_toList {as : List Attachment}
    (h1 : (as.filter fun md => md.name == "dbg").length ≤ 1)
    (h2 : ∀ md ∈ as, md.name = "dbg" → isMdDef md.node = false) :
    dbgRangesOfAttachments as = (findLine as).toList := by
  induction as with
  | nil => rfl
  | cons md rest ih =>
    unfold findLine
    by_cases hname : md.name = "dbg"
    · rw [if_pos hname]
      have hrest0 := no_dbg_in_rest hname h1
      have hrnil := dbgRanges_eq_nil_of_no_dbg hrest0
      have hfl := findLine_eq_none_of_no_dbg hrest0
      rcases hnode : md.node with l | n | _
      · have hlhs : dbgRangesOfAttachments (md :: rest) =
            (l, l) :: dbgRangesOfAttachments rest := by
          unfold dbgRangesOfAttachments
          rw [List.filterMap_cons, if_pos hname, hnode]
          rfl
        rw [hlhs, hrnil]
        rfl
      · have hdef := h2 md (by simp) hname
        rw [hnode] at hdef
        simp [isMdDef] at hdef
      · have hlhs : dbgRangesOfAttachments (md :: rest) =
            dbgRangesOfAttachments rest := by
          unfold dbgRangesOfAttachments
          rw [List.filterMap_cons, if_pos hname, hnode]
          rfl
        rw [hlhs, hrnil, hfl]
        rfl
    · rw [if_neg hname]
      have hlhs : dbgRangesOfAttachments (md :: rest) =
          dbgRangesOfAttachments rest := by
        unfold dbgRangesOfAttachments
        rw [List.filterMap_cons, if_neg hname]
      have h1' : (rest.filter fun md => md.name == "dbg").length ≤ 1 := by
        rw [List.filter_cons, if_neg (by simpa using hname)] at h1
        exact h1
      rw [hlhs]
      exact ih h1' fun md' hmd' hn => h2 md' (by simp [hmd']) hn

/-- C10 counterexample. On a block whose instruction's "dbg" node is a
`metadata.Def`-wrapped DILocation, `lineRangeOfBlockInC` (which unwraps
`Def` before the cast) emits `(5, 5)` while `findBlockLines` (which
casts without unwrapping) emits nothing: the two variants are not
equal. -/
theorem lineRangeOfBlockInC_ne_findBlockLines_cex :
    lineRangeOfBlockInC c10Block = [(5, 5)] ∧
    findBlockLines c10Block = [] ∧
    lineRangeOfBlockInC c10Block ≠ findBlockLines c10Block :=
  ⟨by decide, by decide, by decide⟩

/-- C10 amended. The two source-line lookup variants compute the same
range sequence on every block in which each instruction/terminator
carries at most one "dbg" attachment and no "dbg" attachment's node is a
`metadata.Def` wrapper. -/
theorem lineRangeOfBlockInC_eq_findBlockLines (block : Block)
    (h1 : ∀ v ∈ block.insts ++ [block.term],
      (v.mdAttachments.filter fun md => md.name == "dbg").length ≤ 1)
    (h2 : ∀ v ∈ block.insts ++ [block.term], ∀ md ∈ v.mdAttachments,
      md.name = "dbg" → isMdDef md.node = false) :
    lineRangeOfBlockInC block = findBlockLines block := by
  unfold lineRangeOfBlockInC findBlockLines
  rw [← flatten_map_toList_eq_filterMap]
  congr 1
  apply List.map_congr_left
  intro v hv
  exact dbgRanges_eq_findLine_toList (h1 v hv) (h2 v hv)

/-- Witness for the amended C10 at a block with two direct DILocation
annotations (one on an instruction, one on the terminator). -/
theorem lineRangeOfBlockInC_eq_findBlockLines_witness :
    ((∀ v ∈ c10GoodBlock.insts ++ [c10GoodBlock.term],
      (v.mdAttachments.filter fun md => md.name == "dbg").length ≤ 1) ∧
     (∀ v ∈ c10GoodBlock.insts ++ [c10GoodBlock.term],
       ∀ md ∈ v.mdAttachments,
         md.name = "dbg" → isMdDef md.node = false)) ∧
    lineRangeOfBlockInC c10GoodBlock = findBlockLines c10GoodBlock :=
  ⟨⟨by decide, by decide⟩,
    lineRangeOfBlockInC_eq_findBlockLines c10GoodBlock (by decide)
      (by decide)⟩

/-! ## Claim C9: decompGo temp-directory lifecycle -/

/-- C9. The `decompGo` of output_go.go removes the temp staging dir on
every exit path on which it was created (`defer os.RemoveAll` right
after creation), but the `decompGo` of main.go (and the identical
part_007/`Explorer` variants) never removes it on any path — in
particular a fully successful run creates the directory and exits
without removing it, contradicting the claim that every decompilation
call deletes the directory on every exit path. -/
theorem decompGo_tmpDir_lifecycle :
    (∀ r : DecompRun, (decompGo_outputGo r).tmpDirRemoved =
      (decompGo_outputGo r).tmpDirCreated) ∧
    (∀ r : DecompRun, (decompGo_main r).tmpDirRemoved = false) ∧
    (decompGo_main ⟨true, true, true, true, true⟩).ok = true ∧
    (decompGo_main ⟨true, true, true, true, true⟩).tmpDirCreated = true ∧
    (decompGo_main ⟨true, true, true, true, true⟩).tmpDirRemoved = false := by
  refine ⟨?_, ?_, rfl, rfl, rfl⟩
  · intro r
    obtain ⟨a, b, c, d, e⟩ := r
    cases a <;> cases b <;> cases c <;> cases d <;> cases e <;> rfl
  · intro r
    obtain ⟨a, b, c, d, e⟩ := r
    cases a <;> cases b <;> cases c <;> cases d <;> cases e <;> rfl

end Explore
